import Mathlib

set_option linter.unusedVariables false

/-!
Shallow embedding of the change-notification core of the simple-navigator
plugin: the change aggregator of `src/vault-observer.ts` (debounced event
buffering, flush, fan-out to registered views) and the view-reconciler logic
of `src/folder-container-manager.ts` (identifier-to-element tracking, rename
re-keying, scope checks, date grouping and group ordering).

Machine time is modelled as `Nat` milliseconds; the host clock and timers are
made explicit parameters.  DOM element handles are modelled as `Nat`
identities; containment of a file element in a group container is modelled as
an association from handle to group name.
-/

/-- A folder node as seen through the host API: its `path` and whether it is
the tree root (`TFolder.path`, `TFolder.isRoot()`). -/
structure MFolder where
  path : String
  isRoot : Bool
deriving DecidableEq

/-- A calendar date as produced by the host `Date` API
(`getFullYear`/`getMonth`/`getDate`); `month` is 0-based as in JS. -/
structure MDate where
  year : Nat
  month : Nat
  day : Nat
deriving DecidableEq

/-- A file node (`TFile`): its `path`, its parent chain (`file.parent`,
`parent.parent`, ...; the object identity of a folder is modelled by its
path), and its creation time, carried both as the calendar date the host
would derive from it and as the raw millisecond timestamp used for sorting
(`file.stat.ctime`). -/
structure MFile where
  path : String
  parents : List MFolder
  ctimeDate : MDate
  ctimeMs : Nat
deriving DecidableEq

/-- Insertion into a JS `Set<string>` (insertion-ordered, duplicate-free). -/
def insertUniq (l : List String) (x : String) : List String :=
  if x ∈ l then l else l ++ [x]

/-- Split a character list at every `'/'` (kernel-reducible replacement for
the substring machinery of JS `split('/')`). -/
def splitCharAux : List Char → List Char → List (List Char)
  | [], acc => [acc.reverse]
  | c :: rest, acc =>
    if c = '/' then acc.reverse :: splitCharAux rest []
    else splitCharAux rest (c :: acc)

/-- JS `path.split('/')`. -/
def splitPath (p : String) : List String :=
  (splitCharAux p.data []).map fun cs => String.mk cs

/-- Whether the first character list is an initial segment of the second. -/
def isPrefixChars : List Char → List Char → Bool
  | [], _ => true
  | _ :: _, [] => false
  | a :: as, b :: bs => a = b && isPrefixChars as bs

/-- JS `s.startsWith(pre)`. -/
def jsStartsWith (s pre : String) : Bool :=
  isPrefixChars pre.data s.data

/-- `oldPath.substring(0, oldPath.lastIndexOf('/'))`: the text before the last
slash, `""` when the path has no slash (JS `substring(0, -1)`). -/
def parentOfPath (p : String) : String :=
  let parts := splitPath p
  if parts.length ≤ 1 then "" else String.intercalate "/" parts.dropLast

/-- The ancestor walk of `VaultObserver.calculateAffectedFolders`
(`vault-observer.ts:114-118`): `current = file.parent; while (current &&
!current.isRoot()) { add current.path; current = current.parent }`. -/
def ancestorPaths : List MFolder → List String
  | [] => []
  | p :: rest => if p.isRoot then [] else p.path :: ancestorPaths rest

/-- `VaultObserver.calculateAffectedFolders` (`vault-observer.ts:97-124`):
the parent folder of the entity, the old parent for renames (when nonempty
and different from the current parent), every non-root ancestor, and always
the root identifier `""`; returned as the insertion-ordered contents of the
accumulated `Set`. -/
def calculateAffectedFolders (file : MFile) (oldPath : Option String) : List String :=
  let folders : List String := []
  let folders :=
    match file.parents.head? with
    | some p => insertUniq folders p.path
    | none => folders
  let folders :=
    match oldPath with
    | some op =>
      let oldParentPath := parentOfPath op
      if oldParentPath ≠ "" ∧ (file.parents.head?).map MFolder.path ≠ some oldParentPath then
        insertUniq folders oldParentPath
      else folders
    | none => folders
  let folders := (ancestorPaths file.parents).foldl insertUniq folders
  insertUniq folders ""

/-- The four raw mutation notifications the aggregator subscribes to
(`vault.on('create' | 'delete' | 'rename' | 'modify')`). -/
inductive RawMutation where
  | create (file : MFile)
  | delete (file : MFile)
  | rename (file : MFile) (oldPath : String)
  | modify (file : MFile)
deriving DecidableEq

/-- The `type` discriminator of a `VaultChange`. -/
inductive ChangeType where
  | create
  | delete
  | rename
  | modify
deriving DecidableEq

/-- The `VaultChange` record (`vault-observer.ts:3-8`). -/
structure VaultChange where
  type : ChangeType
  file : MFile
  oldPath : Option String
  affectedFolders : List String
deriving DecidableEq

/-- How `registerVaultEvents` (`vault-observer.ts:53-95`) wraps each raw
mutation into a `VaultChange`, computing `affectedFolders` at capture time. -/
def mkChange : RawMutation → VaultChange
  | RawMutation.create f => ⟨ChangeType.create, f, none, calculateAffectedFolders f none⟩
  | RawMutation.delete f => ⟨ChangeType.delete, f, none, calculateAffectedFolders f none⟩
  | RawMutation.rename f op => ⟨ChangeType.rename, f, some op, calculateAffectedFolders f (some op)⟩
  | RawMutation.modify f => ⟨ChangeType.modify, f, none, calculateAffectedFolders f none⟩

/-- One invocation of a per-kind handler of the `VaultUpdateHandler`
interface (`vault-observer.ts:10-15`). -/
inductive HandlerCall where
  | fileCreate (file : MFile) (affectedFolders : List String)
  | fileDelete (file : MFile) (affectedFolders : List String)
  | fileRename (file : MFile) (oldPath : String) (affectedFolders : List String)
  | fileModify (file : MFile) (affectedFolders : List String)
deriving DecidableEq

/-- The `switch` of `VaultObserver.notifyViews` (`vault-observer.ts:157-172`):
which handler a change is dispatched to; a `rename` change lacking `oldPath`
falls through the `if (change.oldPath)` guard and is dispatched to none. -/
def dispatchChange (c : VaultChange) : Option HandlerCall :=
  match c.type with
  | ChangeType.create => some (HandlerCall.fileCreate c.file c.affectedFolders)
  | ChangeType.delete => some (HandlerCall.fileDelete c.file c.affectedFolders)
  | ChangeType.rename =>
    match c.oldPath with
    | some op => some (HandlerCall.fileRename c.file op c.affectedFolders)
    | none => none
  | ChangeType.modify => some (HandlerCall.fileModify c.file c.affectedFolders)

/-- An observer registered with the aggregator: its object identity and, as
its only modelled behaviour, whether its handler throws on a given call. -/
structure MObserver where
  id : Nat
  throwsOn : HandlerCall → Bool

/-- The observable record of one observer: the calls its handlers were
invoked with (in order), and those its handlers completed without throwing. -/
structure ObsLog where
  invoked : List HandlerCall
  processed : List HandlerCall
deriving DecidableEq

/-- The empty log of a freshly registered observer. -/
def ObsLog.empty : ObsLog := ⟨[], []⟩

/-- The per-view body of `VaultObserver.notifyViews` (`vault-observer.ts:
155-176`): dispatch the change to the matching handler inside `try`/`catch`;
an invocation that throws is caught and only fails to complete. -/
def applyChange (v : MObserver) (lg : ObsLog) (change : VaultChange) : ObsLog :=
  match dispatchChange change with
  | none => lg
  | some call =>
    let lg1 : ObsLog := { lg with invoked := lg.invoked ++ [call] }
    if v.throwsOn call then lg1
    else { lg1 with processed := lg1.processed ++ [call] }

/-- `VaultObserver.notifyViews` (`vault-observer.ts:154-177`): the loop
`for (const view of this.views)` delivering one change to every registered
view; the `catch` makes the loop continue past a throwing handler. -/
def notifyViews (change : VaultChange) (views : List (MObserver × ObsLog)) :
    List (MObserver × ObsLog) :=
  views.map fun p => (p.1, applyChange p.1 p.2 change)

/-- `DEBOUNCE_DELAY` (`vault-observer.ts:24`). -/
def DEBOUNCE_DELAY : Nat := 100

/-- The mutable state of the `VaultObserver` singleton together with the
observer-side logs: the registry `views` (a `Set`, modelled as an
insertion-ordered duplicate-free list paired with each observer's log),
`pendingChanges`, and the debounce timer as the absolute time at which it is
set to fire.  `flushes` records each batch a flush has delivered — the
observable history, not a field of the TS class. -/
structure World where
  views : List (MObserver × ObsLog)
  pending : List VaultChange
  deadline : Option Nat
  flushes : List (List VaultChange)

/-- `VaultObserver.registerView` (`vault-observer.ts:45-47`): `Set.add` —
a no-op when the observer is already present. -/
def registerView (w : World) (v : MObserver) : World :=
  if w.views.any fun p => p.1.id = v.id then w
  else { w with views := w.views ++ [(v, ObsLog.empty)] }

/-- `VaultObserver.unregisterView` (`vault-observer.ts:49-51`):
`Set.delete` — removes the observer if present, otherwise a no-op. -/
def unregisterView (w : World) (v : MObserver) : World :=
  { w with views := w.views.filter fun p => p.1.id ≠ v.id }

/-- `VaultObserver.queueChange` (`vault-observer.ts:126-138`): append the
change to the pending buffer, clear any existing timer and arm a fresh one
`DEBOUNCE_DELAY` after the current time `t`. -/
def queueChange (w : World) (t : Nat) (c : VaultChange) : World :=
  { w with pending := w.pending ++ [c], deadline := some (t + DEBOUNCE_DELAY) }

/-- `VaultObserver.processPendingChanges` (`vault-observer.ts:140-152`):
return if nothing is pending; otherwise snapshot the buffer, swap in an empty
one, clear the timer, and deliver every snapshotted change to every
registered view in order. -/
def processPendingChanges (w : World) : World :=
  if w.pending.isEmpty then w
  else
    let changes := w.pending
    { w with
      pending := []
      deadline := none
      views := changes.foldl (fun vs c => notifyViews c vs) w.views
      flushes := w.flushes ++ [changes] }

/-- The event-loop driver: raw mutations arrive at the given (nondecreasing)
times; before each arrival the debounce timer fires if its deadline has
passed, and after the last arrival the armed timer eventually fires. -/
def runArrivals : World → List (Nat × RawMutation) → World
  | w, [] =>
    match w.deadline with
    | some _ => processPendingChanges w
    | none => w
  | w, (t, m) :: rest =>
    let w1 :=
      match w.deadline with
      | some d => if d ≤ t then processPendingChanges w else w
      | none => w
    runArrivals (queueChange w1 t (mkChange m)) rest

/-- The aggregator state at plugin start: registered views with empty logs,
nothing pending, no timer armed, nothing flushed. -/
def initWorld (obs : List MObserver) : World :=
  ⟨obs.map fun v => (v, ObsLog.empty), [], none, []⟩

/-- `gapsOK d arr`: each arrival comes strictly before the deadline left by
its predecessor (the first strictly before `d`), i.e. consecutive gaps are
strictly below the quiescence window. -/
def gapsOK : Nat → List (Nat × RawMutation) → Bool
  | _, [] => true
  | d, (t, _) :: rest => decide (t < d) && gapsOK (t + DEBOUNCE_DELAY) rest

/-- An interleaving step inside the flush routine's dispatch loop: either the
loop delivers the next snapshotted change, or a raw mutation arrives and is
queued (reentrant `queueChange`) while the loop runs. -/
inductive FlushStep where
  | deliver
  | arrive (t : Nat) (c : VaultChange)

/-- The changes queued (via `queueChange`) during the flush, in order. -/
def arrivedChanges (steps : List FlushStep) : List VaultChange :=
  steps.filterMap fun s =>
    match s with
    | FlushStep.arrive _ c => some c
    | FlushStep.deliver => none

/-- Number of delivery turns the dispatch loop takes in an interleaving. -/
def countDeliver (steps : List FlushStep) : Nat :=
  steps.countP fun s =>
    match s with
    | FlushStep.deliver => true
    | FlushStep.arrive _ _ => false

/-- The timer deadline left after the interleaving: each reentrant
`queueChange` re-arms the timer. -/
def lastDeadline (steps : List FlushStep) (d0 : Option Nat) : Option Nat :=
  steps.foldl
    (fun d s =>
      match s with
      | FlushStep.arrive t _ => some (t + DEBOUNCE_DELAY)
      | FlushStep.deliver => d)
    d0

/-- One step of the interleaved dispatch loop: `deliver` notifies the views
with the next change of the snapshot, `arrive` queues into the (new, swapped)
pending buffer. -/
def flushLoopStep (acc : World × List VaultChange) (s : FlushStep) :
    World × List VaultChange :=
  match s with
  | FlushStep.deliver =>
    match acc.2 with
    | [] => acc
    | c :: rest => ({ acc.1 with views := notifyViews c acc.1.views }, rest)
  | FlushStep.arrive t c => (queueChange acc.1 t c, acc.2)

/-- `VaultObserver.processPendingChanges` with the dispatch loop made
explicit so raw mutations can arrive mid-loop: return if nothing is pending;
otherwise snapshot the buffer (`const changes = [...this.pendingChanges]`),
swap in an empty one, clear the timer, then run the loop under the given
interleaving. -/
def flushInterleaved (w : World) (steps : List FlushStep) : World :=
  if w.pending.isEmpty then w
  else
    let changes := w.pending
    let start : World := { w with pending := [], deadline := none }
    let res := steps.foldl flushLoopStep (start, changes)
    { res.1 with flushes := res.1.flushes ++ [changes] }

/-- The matching per-kind handler call for a raw mutation, as wrapped by
`registerVaultEvents` and dispatched by `notifyViews`. -/
def rawCall : RawMutation → HandlerCall
  | RawMutation.create f => HandlerCall.fileCreate f (calculateAffectedFolders f none)
  | RawMutation.delete f => HandlerCall.fileDelete f (calculateAffectedFolders f none)
  | RawMutation.rename f op => HandlerCall.fileRename f op (calculateAffectedFolders f (some op))
  | RawMutation.modify f => HandlerCall.fileModify f (calculateAffectedFolders f none)

/-- The changes captured for a timed arrival sequence, in arrival order. -/
def changesOf (arr : List (Nat × RawMutation)) : List VaultChange :=
  arr.map fun tm => mkChange tm.2

/-- Lookup in a JS `Map` modelled as an insertion-ordered association list
(first entry with the key; a real `Map` has at most one). -/
def amGet {α β : Type} [DecidableEq α] : List (α × β) → α → Option β
  | [], _ => none
  | p :: m, k => if p.1 = k then some p.2 else amGet m k

/-- JS `Map.set`: overwrite in place if the key exists, else append. -/
def amSet {α β : Type} [DecidableEq α] : List (α × β) → α → β → List (α × β)
  | [], k, v => [(k, v)]
  | p :: m, k, v => if p.1 = k then (k, v) :: m else p :: amSet m k v

/-- JS `Map.delete`: remove the entry for the key if present. -/
def amDelete {α β : Type} [DecidableEq α] (m : List (α × β)) (k : α) :
    List (α × β) :=
  m.filter fun p => decide (p.1 ≠ k)

/-- JS month lengths; February per the Gregorian leap rule (the host `Date`
arithmetic `today.getTime() - 24*60*60*1000`, DST abstracted away). -/
def isLeapYear (y : Nat) : Bool :=
  (decide (y % 4 = 0) && decide (y % 100 ≠ 0)) || decide (y % 400 = 0)

/-- Days in 0-based month `m` of year `y`. -/
def daysInMonth (y : Nat) (m : Nat) : Nat :=
  if m = 1 then (if isLeapYear y then 29 else 28)
  else if m ∈ [3, 5, 8, 10] then 30
  else 31

/-- The calendar day before `d` (`new Date(today.getTime() - 86400000)`). -/
def prevDate (d : MDate) : MDate :=
  if d.day > 1 then ⟨d.year, d.month, d.day - 1⟩
  else if d.month > 0 then ⟨d.year, d.month - 1, daysInMonth d.year (d.month - 1)⟩
  else ⟨d.year - 1, 11, 31⟩

/-- The month labels of `formatDateGroup` (`folder-container-manager.ts:
1531-1532`). -/
def monthNames : List String :=
  ["Jan", "Feb", "Mar", "Apr", "May", "Jun", "Jul", "Aug", "Sep", "Oct", "Nov", "Dec"]

/-- `FolderContainerManager.formatDateGroup` (`folder-container-manager.ts:
1530-1544`): day + abbreviated month, plus the year when it is not the
current year. -/
def formatDateGroup (d : MDate) (currentYear : Nat) : String :=
  let month := monthNames.getD d.month ""
  if d.year = currentYear then toString d.day ++ " " ++ month
  else toString d.day ++ " " ++ month ++ " " ++ toString d.year

/-- The date-bucket part of `FolderContainerManager.getTargetGroup`
(`folder-container-manager.ts:804-828` and `2294-2310`): Today, Yesterday, or
a formatted date label, from the file's creation date and the current day. -/
def getTargetGroup1 (now : MDate) (f : MFile) : String :=
  if f.ctimeDate = now then "Today"
  else if f.ctimeDate = prevDate now then "Yesterday"
  else formatDateGroup f.ctimeDate now.year

/-- `FolderContainerManager.getTargetGroup` of the pinned-aware revision
(`folder-container-manager.ts:2288-2311`): pinned status wins, then date
buckets. -/
def getTargetGroup2 (pinned : String → Bool) (now : MDate) (f : MFile) : String :=
  if pinned f.path then "Pinned" else getTargetGroup1 now f

/-- Append to a key of a JS `Record<string, TFile[]>` (string keys iterate
in insertion order): `if (!groups[key]) groups[key] = [];
groups[key].push(file)` — push onto the existing key in place, else create
the key at the end. -/
def recordAppendFile : List (String × List MFile) → String → MFile →
    List (String × List MFile)
  | [], k, f => [(k, [f])]
  | p :: g, k, f =>
    if p.1 = k then (p.1, p.2 ++ [f]) :: g else p :: recordAppendFile g k f

/-- Lookup of a record key's member list (record keys are unique). -/
def recGet : List (String × List MFile) → String → List MFile
  | [], _ => []
  | p :: g, k => if p.1 = k then p.2 else recGet g k

/-- `FolderContainerManager.groupFilesByDate` (`folder-container-manager.ts:
1493-1528`): a record pre-seeded with `Pinned`, `Today`, `Yesterday`; each
file goes to `Pinned` if pinned, else to its date bucket, date-label keys
being created on first use. -/
def groupFilesByDate (pinned : String → Bool) (now : MDate) (files : List MFile) :
    List (String × List MFile) :=
  files.foldl
    (fun groups f =>
      if pinned f.path then recordAppendFile groups "Pinned" f
      else if f.ctimeDate = now then recordAppendFile groups "Today" f
      else if f.ctimeDate = prevDate now then recordAppendFile groups "Yesterday" f
      else recordAppendFile groups (formatDateGroup f.ctimeDate now.year) f)
    [("Pinned", []), ("Today", []), ("Yesterday", [])]

/-- The sort of `getFiles` (`folder-container-manager.ts:1489-1490`):
`visibleFiles.sort((a, b) => b.stat.ctime - a.stat.ctime)` — newest first. -/
def sortFilesByCtime (files : List MFile) : List MFile :=
  files.mergeSort fun a b => decide (b.ctimeMs ≤ a.ctimeMs)

/-- `renderFileList` of the pinned-aware revision (`folder-container-manager
.ts:1441-1456`) composed with `getFiles`: filter hidden files, sort newest
first, group, and render the nonempty groups in record-key order. -/
def renderFileListGroups (pinned hidden : String → Bool) (now : MDate)
    (files : List MFile) : List (String × List MFile) :=
  (groupFilesByDate pinned now
      (sortFilesByCtime (files.filter fun f => !hidden f.path))).filter
    fun p => !p.2.isEmpty

/-- JS `String.localeCompare` on the ASCII group labels, modelled as
code-point comparison. -/
def localeCompare (a b : String) : Int :=
  match compare a b with
  | Ordering.lt => -1
  | Ordering.eq => 0
  | Ordering.gt => 1

/-- JS `Array.indexOf`: the index of the first occurrence, `-1` if absent. -/
def jsIndexOfAux : List String → String → Int → Int
  | [], _, _ => -1
  | x :: rest, s, i => if x = s then i else jsIndexOfAux rest s (i + 1)

/-- JS `array.indexOf(s)`. -/
def jsIndexOf (l : List String) (s : String) : Int := jsIndexOfAux l s 0

/-- `FolderContainerManager.compareGroupOrder` (`folder-container-manager.ts:
2331-2350`): fixed order `['Today', 'Yesterday']` first, then date labels by
(locale) string comparison, descending. -/
def compareGroupOrder (groupA groupB : String) : Int :=
  let order := ["Today", "Yesterday"]
  let indexA := jsIndexOf order groupA
  let indexB := jsIndexOf order groupB
  if indexA ≠ -1 ∧ indexB ≠ -1 then indexA - indexB
  else if indexA ≠ -1 then -1
  else if indexB ≠ -1 then 1
  else localeCompare groupB groupA

/-- The display-position scan of `ensureGroupExists` (`folder-container-
manager.ts:2242-2274`): insert the new group before the first existing group
that should come after it, else append. -/
def insertGroupAux : List String → String → List String
  | [], g => [g]
  | e :: rest, g =>
    if compareGroupOrder g e < 0 then g :: e :: rest
    else e :: insertGroupAux rest g

/-- The effect of `ensureGroupExists` on the display order of groups (the
group list in DOM order, starting from a full render where map order and DOM
order agree). -/
def ensureGroupDisplayOrder (groups : List String) (g : String) : List String :=
  if g ∈ groups then groups else insertGroupAux groups g

/-- Modelled from the spec: "every ancestor folder of the pre-rename path" —
the proper slash-prefixes of a path, for comparison with what
`calculateAffectedFolders` actually inserts. -/
def specPathAncestors (p : String) : List String :=
  let parts := splitPath p
  (List.range parts.length).filterMap fun i =>
    if i = 0 then none else some (String.intercalate "/" (parts.take i))

/-- The tree root folder (`path` is never compared for the root beyond
`isRoot`). -/
def rootFolder : MFolder := ⟨"/", true⟩

/-- A concrete file at path `a/b/c.md` with parent chain `a/b → a → root`. -/
def fileABC : MFile :=
  ⟨"a/b/c.md", [⟨"a/b", false⟩, ⟨"a", false⟩, rootFolder], ⟨2026, 9, 12⟩, 0⟩

/-- JS `path.split('.')`. -/
def splitDotAux : List Char → List Char → List (List Char)
  | [], acc => [acc.reverse]
  | c :: rest, acc =>
    if c = '.' then acc.reverse :: splitDotAux rest []
    else splitDotAux rest (c :: acc)

/-- `filePath.split('/').pop()?.split('.')[0]` — the basename heuristic of
`getTargetGroupFromPath` (`folder-container-manager.ts:1016-1017`). -/
def jsBasename (p : String) : String :=
  let last := (splitPath p).getLastD ""
  ((splitDotAux last.data []).map fun cs => String.mk cs).headD ""

/-- The state of one `FolderContainerManager` reconciler, at the granularity
the tracked-entry claims need: the identifier-to-element `Map`
(`fileElements`, element handles as `Nat` identities), the set of existing
groups in `Map` insertion order (`groupElements` keys), which group container
holds each file element (DOM containment; intra-group position is not
modelled), and a counter supplying fresh element identities. -/
structure FCMState where
  hasContainer : Bool
  currentFolder : Option MFolder
  isAllNotesMode : Bool
  fileElements : List (String × Nat)
  groupElements : List String
  elemGroup : List (Nat × String)
  nextHandle : Nat
deriving DecidableEq

/-- A map-level or element-level operation performed by a handler, recorded
in execution order (to state "re-key happens strictly before any
remove/insert"). -/
inductive TraceOp where
  | rekey (oldPath newPath : String)
  | removeElem (path : String)
  | insertElem (path : String) (group : String)
deriving DecidableEq

/-- `FolderContainerManager.isFileInCurrentFolder` (`folder-container-
manager.ts:577-597`): all-notes and root show everything; otherwise walk the
parent chain looking for the current folder (object identity modelled as
path equality). -/
def isFileInCurrentFolder1 (st : FCMState) (f : MFile) : Bool :=
  match st.currentFolder with
  | none => false
  | some cf =>
    if st.isAllNotesMode then true
    else if cf.isRoot then true
    else f.parents.any fun p => decide (p.path = cf.path)

/-- `FolderContainerManager.isPathInCurrentFolder` (`folder-container-
manager.ts:599-612`). -/
def isPathInCurrentFolder1 (st : FCMState) (path : String) : Bool :=
  match st.currentFolder with
  | none => false
  | some cf =>
    if st.isAllNotesMode then true
    else if cf.isRoot then true
    else jsStartsWith path (cf.path ++ "/") || decide (path = cf.path)

/-- Which existing group's container holds the element — the scan
`for ([groupName, groupElements] of this.groupElements.entries()) if
(...contains(elements.container))`. -/
def groupContaining (st : FCMState) (h : Nat) : Option String :=
  match amGet st.elemGroup h with
  | some g => if g ∈ st.groupElements then some g else none
  | none => none

/-- The basename-matching fallback scan of `getTargetGroupFromPath`
(`folder-container-manager.ts:1012-1036`), ending in the literal `'Today'`
fallback. -/
def basenameFallback (st : FCMState) (path : String) : String :=
  ((st.fileElements.filterMap fun pr =>
      if jsBasename pr.1 = jsBasename path then groupContaining st pr.2 else none).headD
    "Today")

/-- `FolderContainerManager.getTargetGroupFromPath` (`folder-container-
manager.ts:990-1037`): the group actually containing the tracked element for
the path, else the basename fallback. -/
def getTargetGroupFromPath1 (st : FCMState) (path : String) : String :=
  match amGet st.fileElements path with
  | some h =>
    match groupContaining st h with
    | some g => g
    | none => basenameFallback st path
  | none => basenameFallback st path

/-- `FolderContainerManager.ensureGroupExists` (`folder-container-manager.
ts:758-790`) at map level: `renderFileGroup` registers the new group via
`groupElements.set`, appending to the map's insertion order. -/
def ensureGroupExists1 (st : FCMState) (g : String) : FCMState :=
  if g ∈ st.groupElements then st
  else { st with groupElements := st.groupElements ++ [g] }

/-- `FolderContainerManager.addFileItem` (`folder-container-manager.ts:
663-708`): ensure the group exists, render a fresh element for the file
(`renderFileItem` registers it under `file.path` via `fileElements.set`),
and insert it into the group's container. -/
def addFileItem1 (st : FCMState) (f : MFile) (g : String) : FCMState × List TraceOp :=
  let st1 := ensureGroupExists1 st g
  let h := st1.nextHandle
  ({ st1 with
      fileElements := amSet st1.fileElements f.path h
      elemGroup := amSet st1.elemGroup h g
      nextHandle := st1.nextHandle + 1 },
   [TraceOp.insertElem f.path g])

/-- `FolderContainerManager.removeEmptyGroup` (`folder-container-manager.ts:
792-802`): drop the group if it exists and its container holds no items. -/
def removeEmptyGroup1 (st : FCMState) (g : String) : FCMState :=
  if g ∈ st.groupElements then
    if st.elemGroup.any fun p => decide (p.2 = g) then st
    else { st with groupElements := st.groupElements.erase g }
  else st

/-- `FolderContainerManager.removeFileItem` (`folder-container-manager.ts:
710-743`): look up the element under `file.path`; if absent, return;
otherwise remove the element, delete the map entry, and remove the target
group if now empty. -/
def removeFileItem1 (st : FCMState) (now : MDate) (f : MFile) :
    FCMState × List TraceOp :=
  match amGet st.fileElements f.path with
  | none => (st, [])
  | some h =>
    let st1 :=
      { st with
          fileElements := amDelete st.fileElements f.path
          elemGroup := amDelete st.elemGroup h }
    (removeEmptyGroup1 st1 (getTargetGroup1 now f), [TraceOp.removeElem f.path])

/-- `FolderContainerManager.updateFileItem` (`folder-container-manager.ts:
630-661`): refreshes the displayed fields of the tracked element in place;
no map, group, or element-identity change. -/
def updateFileItem1 (st : FCMState) (f : MFile) : FCMState × List TraceOp :=
  match amGet st.fileElements f.path with
  | none => (st, [])
  | some _ => (st, [])

/-- `FolderContainerManager.updateElementMapKey` (`folder-container-manager.
ts:1052-1067`): re-key the tracked entry from the old to the new path,
keeping the same element handle; no-op when the old path is untracked. -/
def updateElementMapKey1 (st : FCMState) (oldPath newPath : String) :
    FCMState × List TraceOp :=
  match amGet st.fileElements oldPath with
  | some e =>
    ({ st with fileElements := amSet (amDelete st.fileElements oldPath) newPath e },
     [TraceOp.rekey oldPath newPath])
  | none => (st, [])

/-- `FolderContainerManager.moveFileItem` (`folder-container-manager.ts:
745-756`): remove then re-add. -/
def moveFileItem1 (st : FCMState) (now : MDate) (f : MFile) (newGroup : String) :
    FCMState × List TraceOp :=
  let r := removeFileItem1 st now f
  let a := addFileItem1 r.1 f newGroup
  (a.1, r.2 ++ a.2)

/-- `FolderContainerManager.handleFileRename` (`folder-container-manager.ts:
893-965`): scope-check the old path and the new file; within scope, compute
old and new target groups, re-key the map entry first, then update in place
(same group) or move (different group); out-of-scope transitions remove or
add the item. -/
def handleFileRename1 (st : FCMState) (now : MDate) (f : MFile) (oldPath : String) :
    FCMState × List TraceOp :=
  if !st.hasContainer || st.currentFolder.isNone then (st, [])
  else
    let wasInFolder := isPathInCurrentFolder1 st oldPath
    let isInFolder := isFileInCurrentFolder1 st f
    if wasInFolder && isInFolder then
      let oldGroupName := getTargetGroupFromPath1 st oldPath
      let newGroupName := getTargetGroup1 now f
      let r := updateElementMapKey1 st oldPath f.path
      if oldGroupName = newGroupName then
        let u := updateFileItem1 r.1 f
        (u.1, r.2 ++ u.2)
      else
        let m := moveFileItem1 r.1 now f newGroupName
        (m.1, r.2 ++ m.2)
    else if wasInFolder && !isInFolder then removeFileItem1 st now f
    else if !wasInFolder && isInFolder then addFileItem1 st f (getTargetGroup1 now f)
    else (st, [])

/-- 12 Oct 2026 (JS 0-based month 9) used as the current day in concrete
runs. -/
def dateOct12 : MDate := ⟨2026, 9, 12⟩

/-- A reconciler showing folder `notes`, tracking `notes/a.md` as element 1
displayed in the `Today` group. -/
def fcmNotes : FCMState :=
  ⟨true, some ⟨"notes", false⟩, false, [("notes/a.md", 1)], ["Today"], [(1, "Today")], 2⟩

/-- The tracked entity after being renamed out of the displayed folder: its
new path is `other/a.md`. -/
def fileMovedOut : MFile :=
  ⟨"other/a.md", [⟨"other", false⟩, rootFolder], dateOct12, 0⟩

/-- The same entity at its old path `notes/a.md`, as `handleFileDelete`
would receive it. -/
def fileNotesA : MFile :=
  ⟨"notes/a.md", [⟨"notes", false⟩, rootFolder], dateOct12, 0⟩

/-- The tracked entity renamed in place to `notes/b.md`, created today — its
computed target group stays `Today`. -/
def fileNB : MFile :=
  ⟨"notes/b.md", [⟨"notes", false⟩, rootFolder], dateOct12, 0⟩

/-- A reconciler showing folder `n`, tracking `n/x.md` as element 1 whose
DOM element still sits in the `Today` group (rendered the previous day, now
stale). -/
def fcmStale : FCMState :=
  ⟨true, some ⟨"n", false⟩, false, [("n/x.md", 1)], ["Today"], [(1, "Today")], 2⟩

/-- The tracked entity renamed to `n/y.md`; created the day before
`dateOct12`, so its computed target group is `Yesterday`. -/
def fileNY : MFile :=
  ⟨"n/y.md", [⟨"n", false⟩, rootFolder], ⟨2026, 9, 11⟩, 0⟩

/-- A pinned file created today (newest timestamp). -/
def filePinnedC6 : MFile := ⟨"p.md", [rootFolder], dateOct12, 400⟩

/-- An unpinned file created today. -/
def fileTodayC6 : MFile := ⟨"t.md", [rootFolder], dateOct12, 300⟩

/-- An unpinned file created yesterday. -/
def fileYestC6 : MFile := ⟨"y.md", [rootFolder], ⟨2026, 9, 11⟩, 200⟩

/-- An unpinned file created 5 Mar 2026 (older than yesterday). -/
def fileOldC6 : MFile := ⟨"o.md", [rootFolder], ⟨2026, 2, 5⟩, 100⟩

theorem mem_insertUniq {l : List String} {x a : String} :
    a ∈ insertUniq l x ↔ a ∈ l ∨ a = x := by
  unfold insertUniq
  split
  next h =>
    constructor
    · exact Or.inl
    · rintro (ha | rfl)
      · exact ha
      · exact h
  next h => simp [List.mem_append]

theorem mem_insertUniq_self (l : List String) (x : String) : x ∈ insertUniq l x :=
  mem_insertUniq.mpr (Or.inr rfl)

theorem mem_insertUniq_of_mem {l : List String} {a : String} (x : String)
    (h : a ∈ l) : a ∈ insertUniq l x :=
  mem_insertUniq.mpr (Or.inl h)

theorem mem_foldl_insertUniq {xs : List String} {l : List String} {a : String} :
    a ∈ xs.foldl insertUniq l ↔ a ∈ l ∨ a ∈ xs := by
  induction xs generalizing l with
  | nil => simp
  | cons x xs ih =>
    simp only [List.foldl_cons, ih, mem_insertUniq, List.mem_cons]
    tauto

/-- C2: for every captured mutation event, the computed `affectedFolders`
set contains the entity's current parent folder, every non-root folder of
the current parent chain, and always the empty-string root identifier (the
`a/b/c.md` instance is the witness below). -/
theorem C2_affected_folder_completeness (file : MFile) (op : Option String) :
    "" ∈ calculateAffectedFolders file op ∧
    (∀ p, file.parents.head? = some p → p.path ∈ calculateAffectedFolders file op) ∧
    ∀ q ∈ ancestorPaths file.parents, q ∈ calculateAffectedFolders file op := by
  refine ⟨?_, ?_, ?_⟩
  · simp only [calculateAffectedFolders]
    exact mem_insertUniq_self _ _
  · intro p hp
    simp only [calculateAffectedFolders]
    apply mem_insertUniq_of_mem
    apply mem_foldl_insertUniq.mpr
    left
    cases op with
    | none => simp [hp, mem_insertUniq_self]
    | some o =>
      simp only [hp]
      split
      · exact mem_insertUniq_of_mem _ (mem_insertUniq_self _ _)
      · exact mem_insertUniq_self _ _
  · intro q hq
    simp only [calculateAffectedFolders]
    exact mem_insertUniq_of_mem _ (mem_foldl_insertUniq.mpr (Or.inr hq))

/-- Witness for C2 at the spec's own instance: a file created at
`a/b/c.md` yields an affected set containing `a/b`, `a` and `""`. -/
theorem C2_witness :
    "a/b" ∈ calculateAffectedFolders fileABC none ∧
    "a" ∈ calculateAffectedFolders fileABC none ∧
    "" ∈ calculateAffectedFolders fileABC none :=
  ⟨(C2_affected_folder_completeness fileABC none).2.1 ⟨"a/b", false⟩ (by decide),
   (C2_affected_folder_completeness fileABC none).2.2 "a" (by decide),
   (C2_affected_folder_completeness fileABC none).1⟩

/-- C3 counterexample: for the rename of `x/y/c.md` to `a/b/c.md`, the
folder `x` is an ancestor of the pre-rename path, yet it is not in the
computed affected set — the code only adds the immediate old parent
(`x/y`), not the whole previous parent chain. -/
theorem C3_counterexample :
    "x" ∈ specPathAncestors "x/y/c.md" ∧
    "x" ∉ calculateAffectedFolders fileABC (some "x/y/c.md") := by decide

/-- C3 (amended): for every Renamed event, the affected set computed at
capture time includes the pre-rename path's immediate parent folder (when
that parent is nonempty) — not the whole previous parent chain — in
addition to the current parent chain and the tree root. -/
theorem C3_renamed_old_parent (file : MFile) (op : String)
    (h : parentOfPath op ≠ "") :
    parentOfPath op ∈ calculateAffectedFolders file (some op) ∧
    "" ∈ calculateAffectedFolders file (some op) ∧
    (∀ p, file.parents.head? = some p → p.path ∈ calculateAffectedFolders file (some op)) ∧
    ∀ q ∈ ancestorPaths file.parents, q ∈ calculateAffectedFolders file (some op) := by
  refine ⟨?_, (C2_affected_folder_completeness file (some op)).1,
    (C2_affected_folder_completeness file (some op)).2.1,
    (C2_affected_folder_completeness file (some op)).2.2⟩
  simp only [calculateAffectedFolders]
  apply mem_insertUniq_of_mem
  apply mem_foldl_insertUniq.mpr
  left
  split
  · exact mem_insertUniq_self _ _
  · next hc =>
    push_neg at hc
    have hmap := hc h
    obtain ⟨p, hh, hpp⟩ := Option.map_eq_some'.mp hmap
    simp [hh, ← hpp, mem_insertUniq_self]

/-- Witness for C3 at the move `x/y/c.md → a/b/c.md`: the old immediate
parent `x/y` is in the affected set. -/
theorem C3_witness :
    parentOfPath "x/y/c.md" ≠ "" ∧
    "x/y" ∈ calculateAffectedFolders fileABC (some "x/y/c.md") := by
  have h : parentOfPath "x/y/c.md" ≠ "" := by decide
  refine ⟨h, ?_⟩
  have hm := (C3_renamed_old_parent fileABC "x/y/c.md" h).1
  have e : parentOfPath "x/y/c.md" = "x/y" := by decide
  rwa [e] at hm

theorem obsLog_eq (x : ObsLog) (a b : List HandlerCall)
    (h1 : x.invoked = a) (h2 : x.processed = b) : x = ⟨a, b⟩ := by
  cases x
  cases h1
  cases h2
  rfl

theorem foldl_notifyViews (batch : List VaultChange) (views : List (MObserver × ObsLog)) :
    batch.foldl (fun vs c => notifyViews c vs) views =
      views.map fun p => (p.1, batch.foldl (applyChange p.1) p.2) := by
  induction batch generalizing views with
  | nil => simp
  | cons c rest ih =>
    rw [List.foldl_cons, ih]
    simp only [notifyViews, List.map_map, List.foldl_cons]
    rfl

theorem invoked_foldl_applyChange (v : MObserver) (batch : List VaultChange)
    (lg : ObsLog) :
    (batch.foldl (applyChange v) lg).invoked =
      lg.invoked ++ batch.filterMap dispatchChange := by
  induction batch generalizing lg with
  | nil => simp
  | cons c rest ih =>
    simp only [List.foldl_cons, ih, List.filterMap_cons]
    cases hd : dispatchChange c with
    | none => simp [applyChange, hd]
    | some call =>
      simp only [applyChange, hd]
      split
      · simp
      · simp

theorem processed_foldl_applyChange (v : MObserver) (batch : List VaultChange)
    (lg : ObsLog) :
    (batch.foldl (applyChange v) lg).processed =
      lg.processed ++
        (batch.filterMap dispatchChange).filter fun call => !v.throwsOn call := by
  induction batch generalizing lg with
  | nil => simp
  | cons c rest ih =>
    simp only [List.foldl_cons, ih, List.filterMap_cons]
    cases hd : dispatchChange c with
    | none => simp [applyChange, hd]
    | some call =>
      simp only [applyChange, hd]
      cases ht : v.throwsOn call with
      | true => simp [ht, List.filter_cons, List.append_assoc]
      | false => simp [ht, List.filter_cons, List.append_assoc]

theorem dispatch_mkChange (m : RawMutation) :
    dispatchChange (mkChange m) = some (rawCall m) := by
  cases m <;> rfl

theorem changes_dispatch (arr : List (Nat × RawMutation)) :
    (changesOf arr).filterMap dispatchChange = arr.map fun tm => rawCall tm.2 := by
  induction arr with
  | nil => rfl
  | cons a rest ih =>
    simp only [changesOf, List.map_cons, List.filterMap_cons, dispatch_mkChange] at *
    rw [ih]

theorem runArrivals_buffering (arr : List (Nat × RawMutation)) :
    ∀ (w : World) (d : Nat), w.deadline = some d → gapsOK d arr = true →
      w.pending ≠ [] →
      runArrivals w arr =
        { views := (w.pending ++ changesOf arr).foldl (fun vs c => notifyViews c vs) w.views
          pending := []
          deadline := none
          flushes := w.flushes ++ [w.pending ++ changesOf arr] } := by
  induction arr with
  | nil =>
    intro w d hd hg hp
    cases hpend : w.pending with
    | nil => exact absurd hpend hp
    | cons a l =>
      simp [runArrivals, hd, processPendingChanges, hpend, changesOf]
  | cons tm rest ih =>
    intro w d hd hg hp
    obtain ⟨t, m⟩ := tm
    simp only [gapsOK, Bool.and_eq_true, decide_eq_true_eq] at hg
    have hnotle : ¬ d ≤ t := Nat.not_le.mpr hg.1
    have estep : runArrivals w ((t, m) :: rest) =
        runArrivals (queueChange w t (mkChange m)) rest := by
      simp [runArrivals, hd, hnotle]
    rw [estep]
    have hq : (queueChange w t (mkChange m)).deadline = some (t + DEBOUNCE_DELAY) := rfl
    have hqp : (queueChange w t (mkChange m)).pending ≠ [] := by
      simp [queueChange]
    rw [ih (queueChange w t (mkChange m)) (t + DEBOUNCE_DELAY) hq hg.2 hqp]
    simp [queueChange, changesOf, List.append_assoc]

/-- C1: for every sequence of `N ≥ 1` raw mutations in which each mutation
after the first arrives strictly less than the quiescence window
(`DEBOUNCE_DELAY = 100`) after the previous one, exactly one flush occurs;
it delivers all `N` captured Change Events, in arrival order, to every
registered observer, invoking the matching per-kind handler for each event —
no event dropped or reordered, duplicates included. -/
theorem C1_coalesced_single_flush (obs : List MObserver) (t1 : Nat)
    (m1 : RawMutation) (rest : List (Nat × RawMutation))
    (hg : gapsOK (t1 + DEBOUNCE_DELAY) rest = true) :
    (runArrivals (initWorld obs) ((t1, m1) :: rest)).flushes =
        [changesOf ((t1, m1) :: rest)] ∧
    (runArrivals (initWorld obs) ((t1, m1) :: rest)).views =
        (obs.map fun v =>
          (v, (⟨((t1, m1) :: rest).map fun tm => rawCall tm.2,
               (((t1, m1) :: rest).map fun tm => rawCall tm.2).filter
                 fun call => !v.throwsOn call⟩ : ObsLog))) ∧
    (changesOf ((t1, m1) :: rest)).filterMap dispatchChange =
        ((t1, m1) :: rest).map fun tm => rawCall tm.2 := by
  have estep : runArrivals (initWorld obs) ((t1, m1) :: rest) =
      runArrivals (queueChange (initWorld obs) t1 (mkChange m1)) rest := by
    simp [runArrivals, initWorld]
  have hq : (queueChange (initWorld obs) t1 (mkChange m1)).deadline =
      some (t1 + DEBOUNCE_DELAY) := rfl
  have hqp : (queueChange (initWorld obs) t1 (mkChange m1)).pending ≠ [] := by
    simp [queueChange, initWorld]
  have hrun := runArrivals_buffering rest
    (queueChange (initWorld obs) t1 (mkChange m1)) (t1 + DEBOUNCE_DELAY) hq hg hqp
  have hbatch : (queueChange (initWorld obs) t1 (mkChange m1)).pending ++ changesOf rest =
      changesOf ((t1, m1) :: rest) := by
    simp [queueChange, initWorld, changesOf]
  refine ⟨?_, ?_, changes_dispatch _⟩
  · rw [estep, hrun]
    simp [queueChange, initWorld, changesOf]
  · rw [estep, hrun]
    simp only [hbatch]
    rw [foldl_notifyViews]
    have hviews : (queueChange (initWorld obs) t1 (mkChange m1)).views =
        obs.map fun v => (v, ObsLog.empty) := rfl
    rw [hviews, List.map_map]
    apply List.map_congr_left
    intro v _
    simp only [Function.comp]
    refine congrArg (Prod.mk v) (obsLog_eq _ _ _ ?_ ?_)
    · rw [invoked_foldl_applyChange, changes_dispatch]
      rfl
    · rw [processed_foldl_applyChange, changes_dispatch]
      rfl

/-- Witness for C1: two mutations 50 time units apart produce exactly one
flush containing both captured events in order. -/
theorem C1_witness :
    gapsOK (0 + DEBOUNCE_DELAY) [(50, RawMutation.modify fileABC)] = true ∧
    (runArrivals (initWorld [⟨0, fun _ => false⟩])
        [(0, RawMutation.create fileABC), (50, RawMutation.modify fileABC)]).flushes =
      [changesOf [(0, RawMutation.create fileABC), (50, RawMutation.modify fileABC)]] :=
  ⟨by decide,
   (C1_coalesced_single_flush [⟨0, fun _ => false⟩] 0 (RawMutation.create fileABC)
      [(50, RawMutation.modify fileABC)] (by decide)).1⟩

/-- C4: if, during delivery of a flushed batch `b1 ++ E :: b2`, observer `A`
throws on event `E`, the dispatch loop catches it (the fold is total and
continues); every registered observer — the thrower included — is still
invoked with `E`'s call and with the call of every later event of the
batch. -/
theorem C4_throwing_observer_isolation (views : List (MObserver × ObsLog))
    (b1 b2 : List VaultChange) (E : VaultChange) (callE : HandlerCall)
    (A : MObserver × ObsLog) (hA : A ∈ views)
    (hdE : dispatchChange E = some callE)
    (hthrow : A.1.throwsOn callE = true) :
    ∀ p ∈ views,
      (p.1, (b1 ++ E :: b2).foldl (applyChange p.1) p.2) ∈
          (b1 ++ E :: b2).foldl (fun vs c => notifyViews c vs) views ∧
      callE ∈ ((b1 ++ E :: b2).foldl (applyChange p.1) p.2).invoked ∧
      ∀ c ∈ b2, ∀ call, dispatchChange c = some call →
        call ∈ ((b1 ++ E :: b2).foldl (applyChange p.1) p.2).invoked := by
  intro p hp
  have hinv := invoked_foldl_applyChange p.1 (b1 ++ E :: b2) p.2
  refine ⟨?_, ?_, ?_⟩
  · rw [foldl_notifyViews]
    exact List.mem_map_of_mem _ hp
  · rw [hinv]
    apply List.mem_append_right
    apply List.mem_filterMap.mpr
    exact ⟨E, by simp, hdE⟩
  · intro c hc call hcall
    rw [hinv]
    apply List.mem_append_right
    apply List.mem_filterMap.mpr
    exact ⟨c, by simp [hc], hcall⟩

/-- Witness for C4: observer 0 throws on the create call; observer 1 is
still invoked with it, and both receive the subsequent modify call. -/
theorem C4_witness :
    HandlerCall.fileCreate fileABC (calculateAffectedFolders fileABC none) ∈
      (([mkChange (RawMutation.create fileABC),
         mkChange (RawMutation.modify fileABC)]).foldl
        (applyChange ⟨1, fun _ => false⟩) ObsLog.empty).invoked ∧
    HandlerCall.fileModify fileABC (calculateAffectedFolders fileABC none) ∈
      (([mkChange (RawMutation.create fileABC),
         mkChange (RawMutation.modify fileABC)]).foldl
        (applyChange ⟨0, fun c =>
          decide (c = HandlerCall.fileCreate fileABC
            (calculateAffectedFolders fileABC none))⟩) ObsLog.empty).invoked := by
  have h := C4_throwing_observer_isolation
    [(⟨0, fun c => decide (c = HandlerCall.fileCreate fileABC
        (calculateAffectedFolders fileABC none))⟩, ObsLog.empty),
     (⟨1, fun _ => false⟩, ObsLog.empty)]
    [] [mkChange (RawMutation.modify fileABC)]
    (mkChange (RawMutation.create fileABC))
    (HandlerCall.fileCreate fileABC (calculateAffectedFolders fileABC none))
    (⟨0, fun c => decide (c = HandlerCall.fileCreate fileABC
        (calculateAffectedFolders fileABC none))⟩, ObsLog.empty)
    (by simp) rfl (by simp)
  refine ⟨(h ((⟨1, fun _ => false⟩ : MObserver), ObsLog.empty) (by simp)).2.1, ?_⟩
  exact (h ((⟨0, fun c => decide (c = HandlerCall.fileCreate fileABC
      (calculateAffectedFolders fileABC none))⟩ : MObserver), ObsLog.empty)
      (by simp)).2.2
    (mkChange (RawMutation.modify fileABC)) (by simp)
    (HandlerCall.fileModify fileABC (calculateAffectedFolders fileABC none)) rfl

/-- C10: an observer registered while the aggregator is buffering (pending
events, timer armed) receives, at the next flush, every event of the batch,
including those captured before its registration — the recipient set is the
registry at flush time. -/
theorem C10_late_registration (w : World) (ob : MObserver) (d : Nat)
    (hd : w.deadline = some d) (hp : w.pending ≠ [])
    (hfresh : ∀ p ∈ w.views, p.1.id ≠ ob.id) :
    (ob, (⟨w.pending.filterMap dispatchChange,
          (w.pending.filterMap dispatchChange).filter
            fun call => !ob.throwsOn call⟩ : ObsLog)) ∈
      (processPendingChanges (registerView w ob)).views := by
  have hany : (w.views.any fun p => decide (p.1.id = ob.id)) = false := by
    rw [List.any_eq_false]
    intro p hp1
    simp [hfresh p hp1]
  have hreg : registerView w ob = { w with views := w.views ++ [(ob, ObsLog.empty)] } := by
    simp [registerView, hany]
  rw [hreg]
  have hne : ¬ w.pending.isEmpty := by
    simpa [List.isEmpty_iff] using hp
  simp only [processPendingChanges, hne, if_false]
  rw [foldl_notifyViews]
  have hmem : (ob, ObsLog.empty) ∈ w.views ++ [(ob, ObsLog.empty)] := by simp
  have hmap := List.mem_map_of_mem
    (fun p : MObserver × ObsLog => (p.1, w.pending.foldl (applyChange p.1) p.2)) hmem
  have hlog : w.pending.foldl (applyChange ob) ObsLog.empty =
      (⟨w.pending.filterMap dispatchChange,
        (w.pending.filterMap dispatchChange).filter fun call => !ob.throwsOn call⟩ : ObsLog) :=
    obsLog_eq _ _ _ (by rw [invoked_foldl_applyChange]; rfl)
      (by rw [processed_foldl_applyChange]; rfl)
  rw [← hlog]
  exact hmap

/-- Witness for C10: a world with one pending create event and an armed
timer; observer 1 registers late and still receives the whole batch. -/
theorem C10_witness :
    ((⟨1, fun _ => false⟩ : MObserver),
      (⟨[mkChange (RawMutation.create fileABC)].filterMap dispatchChange,
        ([mkChange (RawMutation.create fileABC)].filterMap dispatchChange).filter
          fun call => !(⟨1, fun _ => false⟩ : MObserver).throwsOn call⟩ : ObsLog)) ∈
      (processPendingChanges (registerView
        ⟨[(⟨0, fun _ => false⟩, ObsLog.empty)],
         [mkChange (RawMutation.create fileABC)], some 100, []⟩
        ⟨1, fun _ => false⟩)).views :=
  C10_late_registration
    ⟨[(⟨0, fun _ => false⟩, ObsLog.empty)],
     [mkChange (RawMutation.create fileABC)], some 100, []⟩
    ⟨1, fun _ => false⟩ 100 rfl (by simp) (by simp)

/-- C9: double-registering an observer and unregistering an unknown (or
already unregistered) observer are no-ops: the operations are total (never
raise), other observers' entries are untouched, and the registry keeps at
most one entry per observer identity. -/
theorem C9_registry_misuse (w : World) (v : MObserver) :
    registerView (registerView w v) v = registerView w v ∧
    ((∀ p ∈ w.views, p.1.id ≠ v.id) → unregisterView w v = w) ∧
    unregisterView (unregisterView w v) v = unregisterView w v ∧
    (∀ p ∈ w.views, p.1.id ≠ v.id →
      p ∈ (registerView w v).views ∧ p ∈ (unregisterView w v).views) ∧
    ((w.views.map fun p => p.1.id).Nodup →
      ((registerView w v).views.map fun p => p.1.id).Nodup ∧
      ((unregisterView w v).views.map fun p => p.1.id).Nodup) := by
  refine ⟨?_, ?_, ?_, ?_, ?_⟩
  · by_cases h : (w.views.any fun p => decide (p.1.id = v.id)) = true
    · simp [registerView, h]
    · rw [Bool.not_eq_true] at h
      have h2 : ((w.views ++ [(v, ObsLog.empty)]).any fun p => decide (p.1.id = v.id)) = true := by
        simp
      simp [registerView, h, h2]
  · intro h
    have hf : (w.views.filter fun p => decide (p.1.id ≠ v.id)) = w.views :=
      List.filter_eq_self.mpr fun p hp => by simpa using h p hp
    unfold unregisterView
    rw [hf]
  · simp [unregisterView, List.filter_filter]
  · intro p hp hid
    constructor
    · unfold registerView
      split
      · exact hp
      · exact List.mem_append_left _ hp
    · exact List.mem_filter.mpr ⟨hp, by simpa using hid⟩
  · intro hn
    constructor
    · unfold registerView
      split
      next h => exact hn
      next h =>
        rw [Bool.not_eq_true, List.any_eq_false] at h
        have hvnot : v.id ∉ w.views.map fun p => p.1.id := by
          intro hmem
          obtain ⟨p, hp, he⟩ := List.mem_map.mp hmem
          have hnp := h p hp
          simp [he] at hnp
        simp [List.nodup_append, hn, hvnot]
    · exact hn.sublist ((List.filter_sublist _).map _)

/-- Witness for C9: with observer 0 registered, unregistering observer 1 is
the identity and double-registering observer 1 equals registering it once. -/
theorem C9_witness :
    registerView (registerView ⟨[((⟨0, fun _ => false⟩ : MObserver), ObsLog.empty)], [], none, []⟩
        ⟨1, fun _ => false⟩) ⟨1, fun _ => false⟩ =
      registerView ⟨[((⟨0, fun _ => false⟩ : MObserver), ObsLog.empty)], [], none, []⟩
        ⟨1, fun _ => false⟩ ∧
    unregisterView ⟨[((⟨0, fun _ => false⟩ : MObserver), ObsLog.empty)], [], none, []⟩
        ⟨1, fun _ => false⟩ =
      ⟨[((⟨0, fun _ => false⟩ : MObserver), ObsLog.empty)], [], none, []⟩ :=
  ⟨(C9_registry_misuse ⟨[((⟨0, fun _ => false⟩ : MObserver), ObsLog.empty)], [], none, []⟩
      ⟨1, fun _ => false⟩).1,
   (C9_registry_misuse ⟨[((⟨0, fun _ => false⟩ : MObserver), ObsLog.empty)], [], none, []⟩
      ⟨1, fun _ => false⟩).2.1 (by simp)⟩

theorem flushLoop_closed (steps : List FlushStep) :
    ∀ (w : World) (rem : List VaultChange),
      steps.foldl flushLoopStep (w, rem) =
        ({ views := (rem.take (countDeliver steps)).foldl (fun vs c => notifyViews c vs) w.views
           pending := w.pending ++ arrivedChanges steps
           deadline := lastDeadline steps w.deadline
           flushes := w.flushes },
         rem.drop (countDeliver steps)) := by
  induction steps with
  | nil =>
    intro w rem
    simp [countDeliver, arrivedChanges, lastDeadline]
  | cons s steps ih =>
    intro w rem
    cases s with
    | deliver =>
      cases rem with
      | nil =>
        simp only [List.foldl_cons, flushLoopStep, ih]
        simp [countDeliver, arrivedChanges, lastDeadline, List.countP_cons]
      | cons c rest =>
        simp only [List.foldl_cons, flushLoopStep, ih]
        simp [countDeliver, arrivedChanges, lastDeadline, List.countP_cons]
    | arrive t c =>
      simp only [List.foldl_cons, flushLoopStep, ih, queueChange]
      simp [countDeliver, arrivedChanges, lastDeadline, List.countP_cons]

/-- C8: the flush delivers the snapshot of the pending buffer taken before
its dispatch loop starts: whatever raw mutations arrive during the loop, the
delivered batch is exactly the old buffer, the events that arrived during
the flush end up — in order — in the new, initially empty pending buffer,
and a subsequent flush delivers exactly those. -/
theorem C8_flush_snapshot (w : World) (steps : List FlushStep)
    (hp : w.pending ≠ []) (hcnt : w.pending.length ≤ countDeliver steps) :
    flushInterleaved w steps =
      { views := w.pending.foldl (fun vs c => notifyViews c vs) w.views
        pending := arrivedChanges steps
        deadline := lastDeadline steps none
        flushes := w.flushes ++ [w.pending] } ∧
    (arrivedChanges steps ≠ [] →
      (processPendingChanges (flushInterleaved w steps)).flushes =
        w.flushes ++ [w.pending] ++ [arrivedChanges steps]) := by
  have hne : ¬ w.pending.isEmpty := by simpa [List.isEmpty_iff] using hp
  have hmain : flushInterleaved w steps =
      { views := w.pending.foldl (fun vs c => notifyViews c vs) w.views
        pending := arrivedChanges steps
        deadline := lastDeadline steps none
        flushes := w.flushes ++ [w.pending] } := by
    simp only [flushInterleaved, hne, if_false]
    rw [flushLoop_closed]
    simp [List.take_of_length_le hcnt]
  refine ⟨hmain, ?_⟩
  intro hne2
  have hne3 : ¬ (arrivedChanges steps).isEmpty := by simpa [List.isEmpty_iff] using hne2
  rw [hmain]
  simp [processPendingChanges, hne3]

/-- Witness for C8: one pending create event; the loop delivers it while a
modify event arrives mid-flush; the flushed batch is exactly the snapshot
and the arrival is buffered for (and delivered by) the next flush. -/
theorem C8_witness :
    (flushInterleaved ⟨[], [mkChange (RawMutation.create fileABC)], some 100, []⟩
        [FlushStep.deliver, FlushStep.arrive 120 (mkChange (RawMutation.modify fileABC))]).pending =
      [mkChange (RawMutation.modify fileABC)] ∧
    (processPendingChanges (flushInterleaved
        ⟨[], [mkChange (RawMutation.create fileABC)], some 100, []⟩
        [FlushStep.deliver, FlushStep.arrive 120 (mkChange (RawMutation.modify fileABC))])).flushes =
      [] ++ [[mkChange (RawMutation.create fileABC)]] ++ [[mkChange (RawMutation.modify fileABC)]] := by
  have h := C8_flush_snapshot ⟨[], [mkChange (RawMutation.create fileABC)], some 100, []⟩
    [FlushStep.deliver, FlushStep.arrive 120 (mkChange (RawMutation.modify fileABC))]
    (by decide) (by decide)
  constructor
  · rw [h.1]
    decide
  · exact h.2 (by decide)

theorem amGet_amSet_self {α β : Type} [DecidableEq α] (m : List (α × β)) (k : α) (v : β) :
    amGet (amSet m k v) k = some v := by
  induction m with
  | nil => simp [amSet, amGet]
  | cons p m ih =>
    by_cases hp : p.1 = k
    · simp [amSet, amGet, hp]
    · simp [amSet, amGet, hp, ih]

theorem amGet_amSet_ne {α β : Type} [DecidableEq α] (m : List (α × β)) (k k2 : α)
    (v : β) (hk : k2 ≠ k) : amGet (amSet m k v) k2 = amGet m k2 := by
  induction m with
  | nil => simp [amSet, amGet, Ne.symm hk]
  | cons p m ih =>
    by_cases hp : p.1 = k
    · simp [amSet, amGet, hp, Ne.symm hk]
    · by_cases hp2 : p.1 = k2 <;> simp [amSet, amGet, hp, hp2, hk, Ne.symm hk, ih]

theorem amGet_amDelete_self {α β : Type} [DecidableEq α] (m : List (α × β)) (k : α) :
    amGet (amDelete m k) k = none := by
  induction m with
  | nil => simp [amDelete, amGet]
  | cons p m ih =>
    by_cases hp : p.1 = k
    · simpa [amDelete, List.filter_cons, hp] using ih
    · simpa [amDelete, List.filter_cons, hp, amGet] using ih

theorem amDelete_cons {α β : Type} [DecidableEq α] (p : α × β) (m : List (α × β))
    (k : α) :
    amDelete (p :: m) k = if p.1 = k then amDelete m k else p :: amDelete m k := by
  by_cases hp : p.1 = k <;> simp [amDelete, List.filter_cons, hp]

theorem amGet_amDelete_ne {α β : Type} [DecidableEq α] (m : List (α × β)) (k k2 : α)
    (hk : k2 ≠ k) : amGet (amDelete m k) k2 = amGet m k2 := by
  induction m with
  | nil => simp [amDelete, amGet]
  | cons p m ih =>
    rw [amDelete_cons]
    by_cases hp : p.1 = k
    · have hp2 : ¬ p.1 = k2 := by rw [hp]; exact Ne.symm hk
      simp [amGet, hp, hp2, Ne.symm hk, ih]
    · by_cases hp2 : p.1 = k2 <;> simp [amGet, hp, hp2, hk, Ne.symm hk, ih]

theorem mem_keys_amSet {α β : Type} [DecidableEq α] (m : List (α × β)) (k a : α)
    (v : β) : a ∈ (amSet m k v).map Prod.fst ↔ a ∈ m.map Prod.fst ∨ a = k := by
  induction m with
  | nil => simp [amSet]
  | cons p m ih =>
    by_cases hp : p.1 = k
    · simp only [amSet, hp, if_true, List.map_cons, List.mem_cons]
      tauto
    · simp only [amSet, hp, if_false, List.map_cons, List.mem_cons, ih]
      tauto

theorem keys_amSet_nodup {α β : Type} [DecidableEq α] (m : List (α × β)) (k : α)
    (v : β) (hn : (m.map Prod.fst).Nodup) : ((amSet m k v).map Prod.fst).Nodup := by
  induction m with
  | nil => simp [amSet]
  | cons p m ih =>
    simp only [List.map_cons, List.nodup_cons] at hn
    by_cases hp : p.1 = k
    · simp only [amSet, hp, if_true, List.map_cons, List.nodup_cons]
      exact ⟨hp ▸ hn.1, hn.2⟩
    · simp only [amSet, hp, if_false, List.map_cons, List.nodup_cons, mem_keys_amSet]
      refine ⟨fun hor => ?_, ih hn.2⟩
      rcases hor with hm | he
      · exact hn.1 hm
      · exact he

theorem keys_amDelete_nodup {α β : Type} [DecidableEq α] (m : List (α × β)) (k : α)
    (hn : (m.map Prod.fst).Nodup) : ((amDelete m k).map Prod.fst).Nodup :=
  hn.sublist ((List.filter_sublist _).map _)

theorem updateFileItem1_eq (st : FCMState) (f : MFile) :
    updateFileItem1 st f = (st, []) := by
  unfold updateFileItem1
  cases amGet st.fileElements f.path <;> rfl

theorem removeEmptyGroup1_fileElements (st : FCMState) (g : String) :
    (removeEmptyGroup1 st g).fileElements = st.fileElements := by
  unfold removeEmptyGroup1
  split
  · split <;> rfl
  · rfl

theorem removeEmptyGroup1_nextHandle (st : FCMState) (g : String) :
    (removeEmptyGroup1 st g).nextHandle = st.nextHandle := by
  unfold removeEmptyGroup1
  split
  · split <;> rfl
  · rfl

theorem ensureGroupExists1_fileElements (st : FCMState) (g : String) :
    (ensureGroupExists1 st g).fileElements = st.fileElements := by
  unfold ensureGroupExists1
  split <;> rfl

theorem ensureGroupExists1_nextHandle (st : FCMState) (g : String) :
    (ensureGroupExists1 st g).nextHandle = st.nextHandle := by
  unfold ensureGroupExists1
  split <;> rfl

/-- C5 (amended): renaming a tracked entity from `X` to `Y` with both paths
in scope re-keys the map entry first (the re-key is the head of the
operation trace, strictly before any remove or insert), leaves an entry for
`Y` and none for `X`, and keeps the key set duplicate-free; the entry for
`Y` holds the same element handle exactly when the computed target group is
unchanged — when the target group differs, the element is removed and
re-rendered, so `Y` maps to a fresh handle. -/
theorem C5_rename_rekey (st : FCMState) (now : MDate) (f : MFile) (X : String)
    (h : Nat)
    (hc : st.hasContainer = true) (hcf : st.currentFolder.isNone = false)
    (hwas : isPathInCurrentFolder1 st X = true)
    (his : isFileInCurrentFolder1 st f = true)
    (htrack : amGet st.fileElements X = some h)
    (hne : f.path ≠ X)
    (hnodup : (st.fileElements.map Prod.fst).Nodup) :
    amGet (handleFileRename1 st now f X).1.fileElements X = none ∧
    (∃ h2, amGet (handleFileRename1 st now f X).1.fileElements f.path = some h2) ∧
    (getTargetGroupFromPath1 st X = getTargetGroup1 now f →
      amGet (handleFileRename1 st now f X).1.fileElements f.path = some h) ∧
    ((handleFileRename1 st now f X).1.fileElements.map Prod.fst).Nodup ∧
    (handleFileRename1 st now f X).2.head? = some (TraceOp.rekey X f.path) := by
  have hguard : (!st.hasContainer || st.currentFolder.isNone) = false := by
    simp [hc, hcf]
  by_cases hg : getTargetGroupFromPath1 st X = getTargetGroup1 now f
  · have hrun : handleFileRename1 st now f X =
        ({ st with fileElements := amSet (amDelete st.fileElements X) f.path h },
         [TraceOp.rekey X f.path]) := by
      simp [handleFileRename1, hguard, hwas, his, hg, updateElementMapKey1, htrack,
        updateFileItem1_eq]
    rw [hrun]
    refine ⟨?_, ⟨h, amGet_amSet_self _ _ _⟩, fun _ => amGet_amSet_self _ _ _, ?_, rfl⟩
    · rw [amGet_amSet_ne _ _ _ _ (Ne.symm hne)]
      exact amGet_amDelete_self _ _
    · exact keys_amSet_nodup _ _ _ (keys_amDelete_nodup _ _ hnodup)
  · have hrun : handleFileRename1 st now f X =
        ((moveFileItem1 { st with fileElements := amSet (amDelete st.fileElements X) f.path h }
            now f (getTargetGroup1 now f)).1,
         TraceOp.rekey X f.path ::
          (moveFileItem1 { st with fileElements := amSet (amDelete st.fileElements X) f.path h }
            now f (getTargetGroup1 now f)).2) := by
      simp [handleFileRename1, hguard, hwas, his, hg, updateElementMapKey1, htrack]
    have hm1 : amGet (amSet (amDelete st.fileElements X) f.path h) f.path = some h :=
      amGet_amSet_self _ _ _
    have hfe : (handleFileRename1 st now f X).1.fileElements =
        amSet (amDelete (amSet (amDelete st.fileElements X) f.path h) f.path) f.path
          st.nextHandle := by
      rw [hrun]
      simp [moveFileItem1, removeFileItem1, hm1, addFileItem1,
        removeEmptyGroup1_fileElements, removeEmptyGroup1_nextHandle,
        ensureGroupExists1_fileElements, ensureGroupExists1_nextHandle]
    have htr : (handleFileRename1 st now f X).2 =
        [TraceOp.rekey X f.path, TraceOp.removeElem f.path,
         TraceOp.insertElem f.path (getTargetGroup1 now f)] := by
      rw [hrun]
      simp [moveFileItem1, removeFileItem1, hm1, addFileItem1]
    refine ⟨?_, ?_, fun heq => absurd heq hg, ?_, ?_⟩
    · rw [hfe, amGet_amSet_ne _ _ _ _ (Ne.symm hne),
        amGet_amDelete_ne _ _ _ (Ne.symm hne), amGet_amSet_ne _ _ _ _ (Ne.symm hne)]
      exact amGet_amDelete_self _ _
    · rw [hfe]
      exact ⟨st.nextHandle, amGet_amSet_self _ _ _⟩
    · rw [hfe]
      exact keys_amSet_nodup _ _ _ (keys_amDelete_nodup _ _
        (keys_amSet_nodup _ _ _ (keys_amDelete_nodup _ _ hnodup)))
    · rw [htr]
      rfl

/-- C5 counterexample: the tracked element for `n/x.md` (handle 1) sits in
the `Today` group, but the entity's computed target group after the rename
to `n/y.md` is `Yesterday`; the handler then removes and re-renders the
element, so the entry for `n/y.md` holds the fresh handle 2, not the handle
1 it held under `n/x.md`. -/
theorem C5_counterexample :
    amGet fcmStale.fileElements "n/x.md" = some 1 ∧
    getTargetGroupFromPath1 fcmStale "n/x.md" = "Today" ∧
    getTargetGroup1 dateOct12 fileNY = "Yesterday" ∧
    amGet (handleFileRename1 fcmStale dateOct12 fileNY "n/x.md").1.fileElements
        "n/y.md" = some 2 ∧
    ¬ amGet (handleFileRename1 fcmStale dateOct12 fileNY "n/x.md").1.fileElements
        "n/y.md" = some 1 := by decide

/-- Witness for C5 at a same-group rename `notes/a.md → notes/b.md`: the
entry is re-keyed to the new path with the same handle, the old key is gone,
and the re-key is the first traced operation. -/
theorem C5_witness :
    amGet (handleFileRename1 fcmNotes dateOct12 fileNB "notes/a.md").1.fileElements
        "notes/a.md" = none ∧
    amGet (handleFileRename1 fcmNotes dateOct12 fileNB "notes/a.md").1.fileElements
        "notes/b.md" = some 1 ∧
    (handleFileRename1 fcmNotes dateOct12 fileNB "notes/a.md").2.head? =
      some (TraceOp.rekey "notes/a.md" "notes/b.md") := by
  have h := C5_rename_rekey fcmNotes dateOct12 fileNB "notes/a.md" 1
    (by decide) (by decide) (by decide) (by decide) (by decide) (by decide) (by decide)
  exact ⟨h.1, h.2.2.1 (by decide), h.2.2.2.2⟩

/-- C7 (code bug at `folder-container-manager.ts:950-953`): for a rename
whose old path `notes/a.md` is inside the displayed folder and whose new
path `other/a.md` is outside, the handler calls `removeFileItem(file)`
which looks the entry up under the NEW path — never tracked — so it
returns without removing anything: the state is completely unchanged and
the stale entry for the old path survives, unlike the as-if-deleted
behaviour (last conjunct), which would remove it. -/
theorem C7_rename_out_of_scope_eval :
    isPathInCurrentFolder1 fcmNotes "notes/a.md" = true ∧
    isFileInCurrentFolder1 fcmNotes fileMovedOut = false ∧
    handleFileRename1 fcmNotes dateOct12 fileMovedOut "notes/a.md" = (fcmNotes, []) ∧
    amGet (handleFileRename1 fcmNotes dateOct12 fileMovedOut "notes/a.md").1.fileElements
        "notes/a.md" = some 1 ∧
    (removeFileItem1 fcmNotes dateOct12 fileNotesA).1.fileElements = [] := by decide

theorem recGet_recordAppendFile_self (g : List (String × List MFile)) (k : String)
    (f : MFile) : recGet (recordAppendFile g k f) k = recGet g k ++ [f] := by
  induction g with
  | nil => simp [recordAppendFile, recGet]
  | cons p g ih =>
    by_cases hp : p.1 = k <;> simp [recordAppendFile, recGet, hp, ih]

theorem recGet_recordAppendFile_ne (g : List (String × List MFile)) (k k2 : String)
    (f : MFile) (hk : k2 ≠ k) :
    recGet (recordAppendFile g k f) k2 = recGet g k2 := by
  induction g with
  | nil => simp [recordAppendFile, recGet, Ne.symm hk]
  | cons p g ih =>
    by_cases hp : p.1 = k
    · have hp2 : ¬ p.1 = k2 := by rw [hp]; exact Ne.symm hk
      simp [recordAppendFile, recGet, hp, hp2, Ne.symm hk]
    · by_cases hp2 : p.1 = k2 <;>
        simp [recordAppendFile, recGet, hp, hp2, hk, Ne.symm hk, ih]

theorem keys_recordAppendFile (g : List (String × List MFile)) (k : String)
    (f : MFile) :
    (recordAppendFile g k f).map Prod.fst = insertUniq (g.map Prod.fst) k := by
  induction g with
  | nil => simp [recordAppendFile, insertUniq]
  | cons p g ih =>
    by_cases hp : p.1 = k
    · simp [recordAppendFile, insertUniq, hp]
    · by_cases hm : k ∈ g.map Prod.fst <;>
        simp [recordAppendFile, insertUniq, hp, hm, Ne.symm hp, ih]

theorem keys_groupFold (pinned : String → Bool) (now : MDate) :
    ∀ (files : List MFile) (g : List (String × List MFile)),
      ((files.foldl
          (fun acc f => recordAppendFile acc (getTargetGroup2 pinned now f) f) g).map
        Prod.fst) =
      (files.map fun f => getTargetGroup2 pinned now f).foldl insertUniq
        (g.map Prod.fst) := by
  intro files
  induction files with
  | nil => intro g; rfl
  | cons f files ih =>
    intro g
    simp only [List.foldl_cons, List.map_cons, ih, keys_recordAppendFile]

theorem recGet_groupFold (pinned : String → Bool) (now : MDate) :
    ∀ (files : List MFile) (g : List (String × List MFile)) (k : String),
      recGet (files.foldl
          (fun acc f => recordAppendFile acc (getTargetGroup2 pinned now f) f) g) k =
        recGet g k ++
          files.filter fun f => decide (getTargetGroup2 pinned now f = k) := by
  intro files
  induction files with
  | nil => intro g k; simp
  | cons f files ih =>
    intro g k
    simp only [List.foldl_cons, ih, List.filter_cons]
    by_cases hk : getTargetGroup2 pinned now f = k
    · rw [hk, recGet_recordAppendFile_self]
      simp [hk]
    · rw [recGet_recordAppendFile_ne _ _ _ _ fun he => hk he.symm]
      simp [hk]

theorem groupFilesByDate_eq_fold (pinned : String → Bool) (now : MDate)
    (files : List MFile) :
    groupFilesByDate pinned now files =
      files.foldl (fun acc f => recordAppendFile acc (getTargetGroup2 pinned now f) f)
        [("Pinned", []), ("Today", []), ("Yesterday", [])] := by
  unfold groupFilesByDate
  congr 1
  funext acc f
  unfold getTargetGroup2 getTargetGroup1
  cases h1 : pinned f.path
  · by_cases h2 : f.ctimeDate = now
    · simp [h2]
    · by_cases h3 : f.ctimeDate = prevDate now
      · have h2b : ¬ prevDate now = now := fun he => h2 (by rw [h3, he])
        simp [h2, h3, h2b]
      · simp [h2, h3]
  · simp

theorem foldl_insertUniq_of_mem (l : List String) :
    ∀ xs : List String, (∀ a ∈ xs, a ∈ l) → xs.foldl insertUniq l = l := by
  intro xs
  induction xs with
  | nil => intro _; rfl
  | cons a xs ih =>
    intro h
    have ha : insertUniq l a = l := by simp [insertUniq, h a (by simp)]
    rw [List.foldl_cons, ha]
    exact ih fun b hb => h b (List.mem_cons_of_mem _ hb)

theorem foldl_insertUniq_new (l : List String) (x : String) (hx : x ∉ l) :
    ∀ xs : List String, (∀ a ∈ xs, a ∈ l ∨ a = x) → x ∈ xs →
      xs.foldl insertUniq l = l ++ [x] := by
  intro xs
  induction xs with
  | nil => intro _ hmem; cases hmem
  | cons a xs ih =>
    intro hall hmem
    by_cases ha : a = x
    · subst ha
      rw [List.foldl_cons]
      have he : insertUniq l a = l ++ [a] := by simp [insertUniq, hx]
      rw [he]
      apply foldl_insertUniq_of_mem
      intro b hb
      rcases hall b (List.mem_cons_of_mem _ hb) with h1 | h2
      · exact List.mem_append_left _ h1
      · subst h2; exact List.mem_append_right _ (by simp)
    · have hal : a ∈ l := by
        rcases hall a (by simp) with h1 | h2
        · exact h1
        · exact absurd h2 ha
      rw [List.foldl_cons]
      have he : insertUniq l a = l := by simp [insertUniq, hal]
      rw [he]
      apply ih fun b hb => hall b (List.mem_cons_of_mem _ hb)
      rcases List.mem_cons.mp hmem with h1 | h2
      · exact absurd h1.symm ha
      · exact h2

theorem recGet_of_mem_nodup :
    ∀ (g : List (String × List MFile)), (g.map Prod.fst).Nodup →
      ∀ p ∈ g, recGet g p.1 = p.2 := by
  intro g
  induction g with
  | nil => simp
  | cons q g ih =>
    intro hn p hp
    simp only [List.map_cons, List.nodup_cons] at hn
    rcases List.mem_cons.mp hp with rfl | hp2
    · simp [recGet]
    · have hq : ¬ q.1 = p.1 := by
        intro he
        exact hn.1 (by rw [he]; exact List.mem_map_of_mem Prod.fst hp2)
      simp [recGet, hq, ih hn.2 p hp2]

theorem filter_nonempty_eq (g : List (String × List MFile))
    (h : ∀ p ∈ g, p.2 ≠ []) : (g.filter fun p => !p.2.isEmpty) = g :=
  List.filter_eq_self.mpr fun p hp => by simpa [List.isEmpty_iff] using h p hp

theorem formatDateGroup_has_space (d : MDate) (y : Nat) :
    ' ' ∈ (formatDateGroup d y).data := by
  unfold formatDateGroup
  have hs : (" " : String).data = [' '] := rfl
  split <;>
    simp [String.data_append, hs]

theorem formatDateGroup_ne_fixed (d : MDate) (y : Nat) :
    formatDateGroup d y ≠ "Pinned" ∧ formatDateGroup d y ≠ "Today" ∧
      formatDateGroup d y ≠ "Yesterday" := by
  have hs := formatDateGroup_has_space d y
  refine ⟨?_, ?_, ?_⟩ <;> intro he <;> rw [he] at hs <;> revert hs <;> decide

theorem prevDate_ne (d : MDate) : prevDate d ≠ d := by
  unfold prevDate
  split
  next h =>
    intro he
    have hd := congrArg MDate.day he
    simp at hd
    omega
  next h =>
    split
    next h2 =>
      intro he
      have hm := congrArg MDate.month he
      simp at hm
      omega
    next h2 =>
      intro he
      have hm := congrArg MDate.month he
      simp at hm
      omega

theorem key_of_pinned {pinned : String → Bool} {now : MDate} {f : MFile}
    (h : pinned f.path = true) : getTargetGroup2 pinned now f = "Pinned" := by
  simp [getTargetGroup2, h]

theorem key_of_today {pinned : String → Bool} {now : MDate} {f : MFile}
    (h1 : pinned f.path = false) (h2 : f.ctimeDate = now) :
    getTargetGroup2 pinned now f = "Today" := by
  simp [getTargetGroup2, getTargetGroup1, h1, h2]

theorem key_of_yesterday {pinned : String → Bool} {now : MDate} {f : MFile}
    (h1 : pinned f.path = false) (h2 : f.ctimeDate = prevDate now) :
    getTargetGroup2 pinned now f = "Yesterday" := by
  have hne : ¬ f.ctimeDate = now := by rw [h2]; exact prevDate_ne now
  simp [getTargetGroup2, getTargetGroup1, h1, hne, h2, prevDate_ne now]

theorem key_of_older {pinned : String → Bool} {now D : MDate} {f : MFile}
    (h1 : pinned f.path = false) (hD : f.ctimeDate = D) (hD1 : D ≠ now)
    (hD2 : D ≠ prevDate now) :
    getTargetGroup2 pinned now f = formatDateGroup D now.year := by
  simp [getTargetGroup2, getTargetGroup1, h1, hD, hD1, hD2]

/-- C6 (amended): a full render (`renderFileList`/`groupFilesByDate`) of
displayed files consisting of pinned files, files created today, files
created yesterday, and files created on one older date `D` produces exactly
the group order `[Pinned, Today, Yesterday, <label of D>]`, each group's
members newest-first by creation time.  The claim's incremental clause does
not hold: an incrementally created `Pinned` group is misplaced, see the
counterexample. -/
theorem C6_full_render_grouping (pinned hidden : String → Bool) (now D : MDate)
    (files : List MFile)
    (hD1 : D ≠ now) (hD2 : D ≠ prevDate now)
    (hcat : ∀ f ∈ files, hidden f.path = false →
      pinned f.path = true ∨ f.ctimeDate = now ∨ f.ctimeDate = prevDate now ∨
        f.ctimeDate = D)
    (hpin : ∃ f ∈ files, hidden f.path = false ∧ pinned f.path = true)
    (htod : ∃ f ∈ files, hidden f.path = false ∧ pinned f.path = false ∧
      f.ctimeDate = now)
    (hyes : ∃ f ∈ files, hidden f.path = false ∧ pinned f.path = false ∧
      f.ctimeDate = prevDate now)
    (hold : ∃ f ∈ files, hidden f.path = false ∧ pinned f.path = false ∧
      f.ctimeDate = D) :
    (renderFileListGroups pinned hidden now files).map Prod.fst =
      ["Pinned", "Today", "Yesterday", formatDateGroup D now.year] ∧
    ∀ p ∈ renderFileListGroups pinned hidden now files,
      p.2.Pairwise fun a b => b.ctimeMs ≤ a.ctimeMs := by
  obtain ⟨hlP, hlT, hlY⟩ := formatDateGroup_ne_fixed D now.year
  set label := formatDateGroup D now.year with hlabel
  set S := sortFilesByCtime (files.filter fun f => !hidden f.path) with hSdef
  have hmemS : ∀ f : MFile, f ∈ S ↔ f ∈ files ∧ hidden f.path = false := by
    intro f
    rw [hSdef]
    unfold sortFilesByCtime
    rw [(List.mergeSort_perm _ _).mem_iff, List.mem_filter]
    simp
  have hkeymem : ∀ f ∈ S,
      getTargetGroup2 pinned now f ∈ (["Pinned", "Today", "Yesterday"] : List String) ∨
        getTargetGroup2 pinned now f = label := by
    intro f hf
    obtain ⟨hff, hhid⟩ := (hmemS f).mp hf
    cases hp : pinned f.path with
    | true => left; simp [key_of_pinned hp]
    | false =>
      rcases hcat f hff hhid with h1 | h2 | h3 | h4
      · rw [hp] at h1; cases h1
      · left; simp [key_of_today hp h2]
      · left; simp [key_of_yesterday hp h3]
      · right; rw [hlabel]; exact key_of_older hp h4 hD1 hD2
  have hG := groupFilesByDate_eq_fold pinned now S
  have hxl : label ∉ (["Pinned", "Today", "Yesterday"] : List String) := by
    simp [hlP, hlT, hlY]
  have hall : ∀ a ∈ S.map fun f => getTargetGroup2 pinned now f,
      a ∈ (["Pinned", "Today", "Yesterday"] : List String) ∨ a = label := by
    intro a ha
    obtain ⟨f, hf, rfl⟩ := List.mem_map.mp ha
    exact hkeymem f hf
  have hmemlab : label ∈ S.map fun f => getTargetGroup2 pinned now f := by
    obtain ⟨f0, hf0, hhid, hpf, hdf⟩ := hold
    exact List.mem_map.mpr ⟨f0, (hmemS f0).mpr ⟨hf0, hhid⟩,
      by rw [hlabel]; exact key_of_older hpf hdf hD1 hD2⟩
  have hkeys : (groupFilesByDate pinned now S).map Prod.fst =
      ["Pinned", "Today", "Yesterday", label] := by
    rw [hG, keys_groupFold]
    have hstep := foldl_insertUniq_new ["Pinned", "Today", "Yesterday"] label hxl
      (S.map fun f => getTargetGroup2 pinned now f) hall hmemlab
    simpa using hstep
  have hbase : ∀ k, recGet
      [("Pinned", ([] : List MFile)), ("Today", []), ("Yesterday", [])] k = [] := by
    intro k
    by_cases h1 : ("Pinned" : String) = k <;>
      by_cases h2 : ("Today" : String) = k <;>
      by_cases h3 : ("Yesterday" : String) = k <;>
      simp [recGet, h1, h2, h3]
  have hcont : ∀ k, recGet (groupFilesByDate pinned now S) k =
      S.filter fun f => decide (getTargetGroup2 pinned now f = k) := by
    intro k
    rw [hG, recGet_groupFold, hbase]
    rfl
  have hne4 : ∀ k ∈ (["Pinned", "Today", "Yesterday", label] : List String),
      recGet (groupFilesByDate pinned now S) k ≠ [] := by
    intro k hk
    rw [hcont k]
    simp only [List.mem_cons, List.not_mem_nil, or_false] at hk
    rcases hk with rfl | rfl | rfl | rfl
    · obtain ⟨f0, hf0, hhid, hpf⟩ := hpin
      exact List.ne_nil_of_mem (List.mem_filter.mpr
        ⟨(hmemS f0).mpr ⟨hf0, hhid⟩, by simp [key_of_pinned hpf]⟩)
    · obtain ⟨f0, hf0, hhid, hpf, hdf⟩ := htod
      exact List.ne_nil_of_mem (List.mem_filter.mpr
        ⟨(hmemS f0).mpr ⟨hf0, hhid⟩, by simp [key_of_today hpf hdf]⟩)
    · obtain ⟨f0, hf0, hhid, hpf, hdf⟩ := hyes
      exact List.ne_nil_of_mem (List.mem_filter.mpr
        ⟨(hmemS f0).mpr ⟨hf0, hhid⟩, by simp [key_of_yesterday hpf hdf]⟩)
    · obtain ⟨f0, hf0, hhid, hpf, hdf⟩ := hold
      exact List.ne_nil_of_mem (List.mem_filter.mpr
        ⟨(hmemS f0).mpr ⟨hf0, hhid⟩,
         by rw [hlabel]; simp [key_of_older hpf hdf hD1 hD2]⟩)
  have hnodupkeys : ((groupFilesByDate pinned now S).map Prod.fst).Nodup := by
    rw [hkeys]
    simp [List.nodup_cons, Ne.symm hlP, Ne.symm hlT, Ne.symm hlY]
  have hGne : ∀ p ∈ groupFilesByDate pinned now S, p.2 ≠ [] := by
    intro p hp
    have hkmem : p.1 ∈ (groupFilesByDate pinned now S).map Prod.fst :=
      List.mem_map_of_mem Prod.fst hp
    rw [hkeys] at hkmem
    rw [← recGet_of_mem_nodup _ hnodupkeys p hp]
    exact hne4 p.1 hkmem
  have hrender : renderFileListGroups pinned hidden now files =
      groupFilesByDate pinned now S := by
    unfold renderFileListGroups
    exact filter_nonempty_eq _ hGne
  have hsorted : S.Pairwise fun a b : MFile => b.ctimeMs ≤ a.ctimeMs := by
    have htrans : ∀ a b c : MFile, decide (b.ctimeMs ≤ a.ctimeMs) = true →
        decide (c.ctimeMs ≤ b.ctimeMs) = true →
        decide (c.ctimeMs ≤ a.ctimeMs) = true := by
      intro a b c h1 h2
      simp only [decide_eq_true_eq] at *
      omega
    have htotal : ∀ a b : MFile,
        (decide (b.ctimeMs ≤ a.ctimeMs) || decide (a.ctimeMs ≤ b.ctimeMs)) = true := by
      intro a b
      simpa using Nat.le_total b.ctimeMs a.ctimeMs
    have hms := @List.sorted_mergeSort MFile
      (fun a b : MFile => decide (b.ctimeMs ≤ a.ctimeMs)) htrans htotal
      (files.filter fun f => !hidden f.path)
    rw [hSdef]
    unfold sortFilesByCtime
    exact hms.imp fun h => by simpa using h
  refine ⟨?_, ?_⟩
  · rw [hrender, hkeys]
  · intro p hp
    rw [hrender] at hp
    rw [← recGet_of_mem_nodup _ hnodupkeys p hp, hcont]
    exact List.Pairwise.sublist (List.filter_sublist _) hsorted

/-- C6 counterexample: starting from the full-render display order
`[Today, Yesterday, 5 Mar]`, incrementally creating the `Pinned` group (as
`handleFileCreate` does for a newly created pinned file via
`addFileItem → ensureGroupExists → compareGroupOrder`, whose fixed order
list `['Today', 'Yesterday']` lacks `Pinned`) inserts it after the
chronological groups — the resulting order is
`[Today, Yesterday, Pinned, 5 Mar]`, not pinned-first. -/
theorem C6_counterexample :
    getTargetGroup2 (fun _ => true) dateOct12 filePinnedC6 = "Pinned" ∧
    formatDateGroup ⟨2026, 2, 5⟩ 2026 = "5 Mar" ∧
    ensureGroupDisplayOrder ["Today", "Yesterday", "5 Mar"] "Pinned" =
      ["Today", "Yesterday", "Pinned", "5 Mar"] ∧
    ensureGroupDisplayOrder ["Today", "Yesterday", "5 Mar"] "Pinned" ≠
      ["Pinned", "Today", "Yesterday", "5 Mar"] := by decide

/-- Witness for C6 at a concrete full render: a pinned file, a today file, a
yesterday file and a 5 Mar 2026 file yield exactly the four groups in the
claimed order. -/
theorem C6_witness :
    (renderFileListGroups (fun p => decide (p = "p.md")) (fun _ => false) dateOct12
        [filePinnedC6, fileTodayC6, fileYestC6, fileOldC6]).map Prod.fst =
      ["Pinned", "Today", "Yesterday", formatDateGroup ⟨2026, 2, 5⟩ dateOct12.year] :=
  (C6_full_render_grouping (fun p => decide (p = "p.md")) (fun _ => false) dateOct12
    ⟨2026, 2, 5⟩ [filePinnedC6, fileTodayC6, fileYestC6, fileOldC6]
    (by decide) (by decide) (by decide) (by decide) (by decide) (by decide)
    (by decide)).1
